import Mathlib

/- Formal model of the alignment-and-conditioning pipeline of the
NaturalSpeech2 implementation (TTS/tts/models/naturalspeech2.py).
Scores of the dynamic-programming alignment search are rational numbers;
the unreachable value (minus infinity) is represented by Option.none. -/

set_option maxHeartbeats 1000000
set_option linter.unusedVariables false

/-- Score addition: adding a log-probability to a possibly unreachable score.
Adding to an unreachable score stays unreachable. -/
def scoreAdd (q : ℚ) (s : Option ℚ) : Option ℚ :=
  s.map (fun v => q + v)

/-- Score maximum, where Option.none acts as minus infinity. -/
def scoreMax (a b : Option ℚ) : Option ℚ :=
  match a, b with
  | none, b => b
  | a, none => a
  | some x, some y => some (max x y)

/-- Score comparison (greater or equal), where Option.none acts as minus
infinity; used by the backtracking tie-break. -/
def scoreGe (a b : Option ℚ) : Bool :=
  match a, b with
  | _, none => true
  | none, some _ => false
  | some x, some y => decide (y ≤ x)

/-- Modelled from the spec: the dynamic-programming table of
TTS.tts.utils.helpers.maximum_path (called by _forward_aligner but not under
src/). best lp tx ty j i is the maximum cumulative log-probability of any
monotonic path reaching phoneme i at frame j, with recurrence
best i j = lp i j + max (best i (j-1)) (best (i-1) (j-1)), base case
best 0 0 = lp 0 0, and positions outside the valid sub-rectangle
(i < tx, j < ty) unreachable. -/
def bestCol (lp : ℕ → ℕ → ℚ) (tx ty : ℕ) : ℕ → ℕ → Option ℚ
  | 0, i => if i = 0 ∧ 0 < tx ∧ 0 < ty then some (lp 0 0) else none
  | j + 1, i =>
    if i < tx ∧ j + 1 < ty then
      scoreAdd (lp i (j + 1))
        (scoreMax (bestCol lp tx ty j i)
          (match i with
           | 0 => none
           | i' + 1 => bestCol lp tx ty j i'))
    else none

/-- Modelled from the spec: the backtracking pass of
TTS.tts.utils.helpers.maximum_path (not under src/). btAux k is the phoneme
assigned to frame ty - 1 - k: backtracking starts at the last valid phoneme
on the last valid frame and, at each step, moves to whichever predecessor
(same phoneme or previous phoneme, at the previous frame) has the larger
score, ties broken in favor of staying on the same phoneme. -/
def btAux (lp : ℕ → ℕ → ℚ) (tx ty : ℕ) : ℕ → ℕ
  | 0 => tx - 1
  | k + 1 =>
    match btAux lp tx ty k with
    | 0 => 0
    | i' + 1 =>
      if scoreGe (bestCol lp tx ty (ty - 1 - (k + 1)) (i' + 1))
                 (bestCol lp tx ty (ty - 1 - (k + 1)) i') then i' + 1
      else i'

/-- Modelled from the spec: the phoneme assigned by the monotonic alignment
search to frame j (maximum_path is not under src/). -/
def masAssign (lp : ℕ → ℕ → ℚ) (tx ty : ℕ) (j : ℕ) : ℕ :=
  btAux lp tx ty (ty - 1 - j)

/-- Modelled from the spec: the hard alignment matrix alignment_mas returned
by maximum_path (not under src/): entry (i, j) is true when valid frame j is
assigned phoneme i, and false outside the valid sub-rectangle. -/
def masPath (lp : ℕ → ℕ → ℚ) (tx ty : ℕ) (i j : ℕ) : Bool :=
  decide ((i < tx ∧ j < ty) ∧ masAssign lp tx ty j = i)

/-- Row sum of the hard alignment over the padded frame axis J, as in
alignment_hard = torch.sum(alignment_mas, -1) in _forward_aligner. -/
def alignmentHard (lp : ℕ → ℕ → ℚ) (tx ty J : ℕ) (i : ℕ) : ℕ :=
  ((Finset.range J).filter (fun j => masPath lp tx ty i j = true)).card

/-- NaN detection on a soft-alignment matrix: entries are Option ℚ, where
Option.none models a NaN floating-point value. -/
def hasNaN (A : List (List (Option ℚ))) : Bool :=
  A.any (fun row => row.any (fun v => v.isNone))

/-- Error raised by the aligner forward pass: the assert at line 712 of
naturalspeech2.py fails fatally when the soft alignment contains a NaN. -/
inductive AlignerError
  | alignmentNaN
deriving DecidableEq

/-- Soft-alignment entry read with NaN entries defaulted; only used on
matrices already checked to be NaN-free. -/
def softEntry (A : List (List (Option ℚ))) (i j : ℕ) : ℚ :=
  (((A.getD i []).getD j none).getD 0)

/-- The aligner forward pass of _forward_aligner (lines 710 to 718): first
the NaN assert on the soft alignment, then the monotonic alignment search on
the masked soft alignment. A NaN entry is fatal and the search never runs. -/
def forwardAligner (A : List (List (Option ℚ))) (tx ty : ℕ) :
    Except AlignerError (ℕ → ℕ → Bool) :=
  if hasNaN A then Except.error AlignerError.alignmentNaN
  else Except.ok (masPath (softEntry A) tx ty)

/-- Cumulative duration: the sum of the first i per-phoneme durations. -/
def cumDur (d : ℕ → ℕ) (i : ℕ) : ℕ :=
  ∑ k in Finset.range i, d k

/-- Modelled from the spec: TTS.tts.utils.helpers.generate_path (called by
generate_attn but not under src/). Builds the frame-level one-hot assignment
matrix directly from integer per-phoneme durations: valid frame j is
assigned phoneme i exactly when j lies in the block of frames
[cumDur d i, cumDur d (i+1)) reserved for phoneme i; all entries outside the
valid sub-rectangle given by the input and output masks are false. -/
def generate_path (d : ℕ → ℕ) (tx ty : ℕ) (i j : ℕ) : Bool :=
  decide ((i < tx ∧ j < ty) ∧ cumDur d i ≤ j ∧ j < cumDur d (i + 1))

/-- Per-phoneme durations computed as the row-sum of a hard alignment matrix
over the frame axis of width ty. -/
def computeDurations (H : ℕ → ℕ → Bool) (ty : ℕ) (i : ℕ) : ℕ :=
  ((Finset.range ty).filter (fun j => H i j = true)).card

/-- Output length derived by generate_attn (lines 735 to 738) when no output
mask is given: the durations are summed and every value below 1 is raised to
1 before the output mask is built. Durations at inference are rounded, hence
integer-valued, so they are modelled as integers. -/
def generate_attn_ylen (dr : List ℤ) : ℤ :=
  if dr.sum < 1 then 1 else dr.sum

/-- Valid output length passed to the diffusion model, per utterance: the
sum of the per-phoneme durations plus one, as computed at lines 804 to 807
of forward and lines 897 to 900 of inference (out_len). -/
def out_len (duration : List ℚ) : ℚ :=
  duration.sum + 1

/-- Valid output length passed to the diffusion model in the training path,
computed from the row-sums of the hard alignment (durations as naturals). -/
def out_lenNat (d : ℕ → ℕ) (tx : ℕ) : ℕ :=
  (∑ i in Finset.range tx, d i) + 1

/-- Round to nearest integer with ties to even, the rounding convention of
torch.round applied to the predicted durations at line 887 of inference
(the subsequent multiplication by 1.0 is the identity). -/
def roundHalfEven (q : ℚ) : ℤ :=
  if q - Int.floor q < 1 / 2 then Int.floor q
  else if 1 / 2 < q - Int.floor q then Int.floor q + 1
  else if Int.floor q % 2 = 0 then Int.floor q else Int.floor q + 1

/-- The per-phoneme duration used by the inference orchestrator, as a
function of the raw predicted duration: line 887 of inference applies
torch.round and nothing else (no clamping). -/
def infDurations (q : ℚ) : ℤ :=
  roundHalfEven q

/-- The mel-scale-like logarithmic transform applied to training pitch
targets at line 831 of forward. -/
noncomputable def melScalePitch (f : ℝ) : ℝ :=
  2595 * Real.logb 10 (1 + f / 700) / 500

/-- The inverse pitch transform applied at inference, line 893. -/
noncomputable def invMelScalePitch (p : ℝ) : ℝ :=
  700 * ((10 : ℝ) ^ (p * 500 / 2595) - 1)

/-- Minimum of the batch latent lengths, as torch.min(latents_lengths). -/
def latentsMin : List ℕ → ℕ
  | [] => 0
  | x :: xs => xs.foldl min x

/-- Effective prompt segment size as a function of the drawn target size p
and the batch-minimum latent length, lines 776 to 780 of forward: the drawn
size when every utterance is strictly longer than it, otherwise half the
batch minimum, truncated to an integer. -/
def seg_size_std (p minLen : ℕ) : ℕ :=
  if p < minLen then p else minLen / 2

/-- Effective prompt segment size for a whole batch: a single value shared
by every utterance, computed from the batch minimum length. -/
def seg_size_std_batch (p : ℕ) (lens : List ℕ) : ℕ :=
  seg_size_std p (latentsMin lens)

/-- The remaining (complement) mask of the training orchestrator, lines 786
to 788 of forward: every position starts true and the positions of the
sampled segment slice [idx, idx + size) are set to false. The channel axis
is broadcast and omitted. -/
def remaining_mask (idx size t : ℕ) : Bool :=
  !(decide (idx ≤ t ∧ t < idx + size))

/-- Modelled from the spec: the positions of the prompt segment extracted by
TTS.tts.utils.helpers.rand_segments (not under src/): size contiguous frames
starting at the sampled start index. -/
def segment_positions (idx size : ℕ) : Finset ℕ :=
  Finset.Ico idx (idx + size)

/-- Example matrix of log-scores used to instantiate alignment theorems. -/
def lpEx : ℕ → ℕ → ℚ :=
  fun i j => (i : ℚ) + j

/-- Example assignment function (all frames on phoneme 0) used to instantiate
the round-trip theorem. -/
def aEx : ℕ → ℕ :=
  fun _ => 0

/-- Example hard alignment matrix built from aEx. -/
def HEx : ℕ → ℕ → Bool :=
  fun i j => decide ((i < 1 ∧ j < 2) ∧ aEx j = i)

theorem btAux_succ_le (lp : ℕ → ℕ → ℚ) (tx ty k : ℕ) :
    btAux lp tx ty (k + 1) ≤ btAux lp tx ty k := by
  cases h : btAux lp tx ty k with
  | zero => simp [btAux, h]
  | succ i' =>
    simp only [btAux, h]
    split <;> omega

theorem btAux_le (lp : ℕ → ℕ → ℚ) (tx ty : ℕ) :
    ∀ k, btAux lp tx ty k ≤ tx - 1 := by
  intro k
  induction k with
  | zero => simp [btAux]
  | succ n ih => exact le_trans (btAux_succ_le lp tx ty n) ih

theorem btAux_anti (lp : ℕ → ℕ → ℚ) (tx ty : ℕ) {k k' : ℕ} (h : k ≤ k') :
    btAux lp tx ty k' ≤ btAux lp tx ty k := by
  induction h with
  | refl => exact le_refl _
  | step h ih => exact le_trans (btAux_succ_le lp tx ty _) ih

theorem masAssign_lt (lp : ℕ → ℕ → ℚ) (tx ty : ℕ) (htx : 0 < tx) (j : ℕ) :
    masAssign lp tx ty j < tx := by
  have h := btAux_le lp tx ty (ty - 1 - j)
  unfold masAssign
  omega

theorem masAssign_mono (lp : ℕ → ℕ → ℚ) (tx ty : ℕ) {j₁ j₂ : ℕ}
    (h : j₁ ≤ j₂) : masAssign lp tx ty j₁ ≤ masAssign lp tx ty j₂ := by
  exact btAux_anti lp tx ty (by omega)

theorem masPath_true_iff (lp : ℕ → ℕ → ℚ) (tx ty i j : ℕ) :
    masPath lp tx ty i j = true ↔
      (i < tx ∧ j < ty) ∧ masAssign lp tx ty j = i := by
  simp [masPath]

/-- C1: for every soft-alignment matrix with a valid mask (at least one valid
phoneme), the hard alignment returned by the monotonic alignment search
assigns exactly one phoneme to every valid frame, and the assigned phoneme
index is non-decreasing as the frame index increases. -/
theorem mas_onehot_monotone (lp : ℕ → ℕ → ℚ) (tx ty : ℕ) (htx : 0 < tx) :
    (∀ j, j < ty → ∃! i, masPath lp tx ty i j = true) ∧
    (∀ i₁ j₁ i₂ j₂, j₁ ≤ j₂ → masPath lp tx ty i₁ j₁ = true →
      masPath lp tx ty i₂ j₂ = true → i₁ ≤ i₂) := by
  constructor
  · intro j hj
    refine ⟨masAssign lp tx ty j, ?_, ?_⟩
    · exact (masPath_true_iff lp tx ty _ j).mpr
        ⟨⟨masAssign_lt lp tx ty htx j, hj⟩, rfl⟩
    · intro i hi
      exact ((masPath_true_iff lp tx ty i j).mp hi).2.symm
  · intro i₁ j₁ i₂ j₂ hle h₁ h₂
    have e₁ := ((masPath_true_iff lp tx ty i₁ j₁).mp h₁).2
    have e₂ := ((masPath_true_iff lp tx ty i₂ j₂).mp h₂).2
    calc i₁ = masAssign lp tx ty j₁ := e₁.symm
    _ ≤ masAssign lp tx ty j₂ := masAssign_mono lp tx ty hle
    _ = i₂ := e₂

/-- Witness for C1 at a concrete soft alignment with 2 phonemes, 3 frames. -/
theorem mas_onehot_monotone_witness :
    0 < 2 ∧
    ((∀ j, j < 3 → ∃! i, masPath lpEx 2 3 i j = true) ∧
     (∀ i₁ j₁ i₂ j₂, j₁ ≤ j₂ → masPath lpEx 2 3 i₁ j₁ = true →
       masPath lpEx 2 3 i₂ j₂ = true → i₁ ≤ i₂)) :=
  ⟨by decide, mas_onehot_monotone lpEx 2 3 (by decide)⟩

theorem alignmentHard_fiber (lp : ℕ → ℕ → ℚ) (tx ty J : ℕ) (hJ : ty ≤ J)
    {i : ℕ} (hi : i ∈ Finset.range tx) :
    (Finset.range J).filter (fun j => masPath lp tx ty i j = true) =
      (Finset.range ty).filter (fun j => masAssign lp tx ty j = i) := by
  ext j
  simp only [Finset.mem_filter, Finset.mem_range, masPath, decide_eq_true_eq]
  constructor
  · rintro ⟨hjJ, ⟨⟨hitx, hjty⟩, he⟩⟩
    exact ⟨hjty, he⟩
  · rintro ⟨hjty, he⟩
    exact ⟨by omega, ⟨⟨Finset.mem_range.mp hi, hjty⟩, he⟩⟩

theorem sum_alignmentHard (lp : ℕ → ℕ → ℚ) (tx ty J : ℕ) (htx : 0 < tx)
    (hJ : ty ≤ J) :
    ∑ i in Finset.range tx, alignmentHard lp tx ty J i = ty := by
  calc ∑ i in Finset.range tx, alignmentHard lp tx ty J i
      = ∑ i in Finset.range tx,
          ((Finset.range ty).filter (fun j => masAssign lp tx ty j = i)).card := by
        refine Finset.sum_congr rfl (fun i hi => ?_)
        rw [alignmentHard, alignmentHard_fiber lp tx ty J hJ hi]
    _ = (Finset.range ty).card := by
        refine (Finset.card_eq_sum_card_fiberwise (fun j hj => ?_)).symm
        exact Finset.mem_range.mpr (masAssign_lt lp tx ty htx j)
    _ = ty := Finset.card_range ty

/-- C2: the per-phoneme durations computed as row-sums of the hard alignment
are non-negative integers whose sum over the valid phonemes equals the
utterance's valid frame length ty (the padded frame axis has width J). -/
theorem durations_sum_eq_frames (lp : ℕ → ℕ → ℚ) (tx ty J : ℕ)
    (htx : 0 < tx) (hJ : ty ≤ J) :
    (∀ i, 0 ≤ (alignmentHard lp tx ty J i : ℤ)) ∧
    ∑ i in Finset.range tx, alignmentHard lp tx ty J i = ty :=
  ⟨fun i => Int.natCast_nonneg _, sum_alignmentHard lp tx ty J htx hJ⟩

/-- Witness for C2 at a concrete soft alignment, 2 phonemes, 3 valid frames,
4 padded frames. -/
theorem durations_sum_eq_frames_witness :
    0 < 2 ∧ 3 ≤ 4 ∧
    ((∀ i, 0 ≤ (alignmentHard lpEx 2 3 4 i : ℤ)) ∧
     ∑ i in Finset.range 2, alignmentHard lpEx 2 3 4 i = 3) :=
  ⟨by decide, by decide, durations_sum_eq_frames lpEx 2 3 4 (by decide) (by decide)⟩

/-- C9 counterexample: for the spec's own example durations [2, 2, 1]
(valid frame count 5), the length passed to the diffusion model is 6, not
the sum of the durations. -/
theorem out_len_ne_duration_sum :
    out_len [2, 2, 1] = 6 ∧ ([2, 2, 1] : List ℚ).sum = 5 ∧
    out_len [2, 2, 1] ≠ ([2, 2, 1] : List ℚ).sum := by
  refine ⟨?_, ?_, ?_⟩ <;> norm_num [out_len]

/-- C9 amended: the valid output length the training orchestrator passes to
the diffusion model is the utterance's valid frame count plus one (the
per-phoneme durations of the hard alignment summed, plus one). -/
theorem out_len_training (lp : ℕ → ℕ → ℚ) (tx ty J : ℕ)
    (htx : 0 < tx) (hJ : ty ≤ J) :
    out_lenNat (alignmentHard lp tx ty J) tx = ty + 1 := by
  rw [out_lenNat, sum_alignmentHard lp tx ty J htx hJ]

/-- Witness for the amended C9 at a concrete soft alignment. -/
theorem out_len_training_witness :
    0 < 2 ∧ 3 ≤ 4 ∧ out_lenNat (alignmentHard lpEx 2 3 4) 2 = 3 + 1 :=
  ⟨by decide, by decide, out_len_training lpEx 2 3 4 (by decide) (by decide)⟩

theorem monotone_count_iff (a : ℕ → ℕ) (ty : ℕ)
    (hmono : ∀ j₁ j₂, j₁ ≤ j₂ → j₂ < ty → a j₁ ≤ a j₂)
    (i j : ℕ) (hj : j < ty) :
    a j < i ↔ j < ((Finset.range ty).filter (fun t => a t < i)).card := by
  constructor
  · intro h
    have hsub : Finset.range (j + 1) ⊆
        (Finset.range ty).filter (fun t => a t < i) := by
      intro k hk
      have hk' : k ≤ j := by
        have := Finset.mem_range.mp hk
        omega
      refine Finset.mem_filter.mpr ⟨Finset.mem_range.mpr (by omega), ?_⟩
      exact lt_of_le_of_lt (hmono k j hk' hj) h
    have hcard := Finset.card_le_card hsub
    rw [Finset.card_range] at hcard
    omega
  · intro h
    by_contra hcon
    push_neg at hcon
    have hsub : (Finset.range ty).filter (fun t => a t < i) ⊆
        Finset.range j := by
      intro k hk
      obtain ⟨hkty, hki⟩ := Finset.mem_filter.mp hk
      have hkty' := Finset.mem_range.mp hkty
      refine Finset.mem_range.mpr ?_
      by_contra hjk
      push_neg at hjk
      have := hmono j k hjk hkty'
      omega
    have hcard := Finset.card_le_card hsub
    rw [Finset.card_range] at hcard
    omega

theorem cumDur_fiber (a : ℕ → ℕ) (ty i : ℕ) :
    ∑ k in Finset.range i,
        ((Finset.range ty).filter (fun j => a j = k)).card =
      ((Finset.range ty).filter (fun j => a j < i)).card := by
  have H : ∀ x ∈ (Finset.range ty).filter (fun j => a j < i),
      a x ∈ Finset.range i := by
    intro x hx
    exact Finset.mem_range.mpr (Finset.mem_filter.mp hx).2
  rw [Finset.card_eq_sum_card_fiberwise H]
  refine Finset.sum_congr rfl (fun k hk => ?_)
  have hki := Finset.mem_range.mp hk
  congr 1
  rw [Finset.filter_filter]
  ext j
  simp only [Finset.mem_filter, Finset.mem_range]
  constructor
  · rintro ⟨hj, he⟩
    exact ⟨hj, by omega, he⟩
  · rintro ⟨hj, hlt, he⟩
    exact ⟨hj, he⟩

theorem computeDurations_eq (tx ty : ℕ) (a : ℕ → ℕ) (H : ℕ → ℕ → Bool)
    (hH : ∀ i j, H i j = decide ((i < tx ∧ j < ty) ∧ a j = i))
    {k : ℕ} (hk : k < tx) :
    computeDurations H ty k =
      ((Finset.range ty).filter (fun j => a j = k)).card := by
  unfold computeDurations
  congr 1
  ext j
  simp only [Finset.mem_filter, Finset.mem_range, hH, decide_eq_true_eq]
  constructor
  · rintro ⟨hj, _, he⟩
    exact ⟨hj, he⟩
  · rintro ⟨hj, he⟩
    exact ⟨hj, ⟨hk, hj⟩, he⟩

theorem cumDur_computeDurations (tx ty : ℕ) (a : ℕ → ℕ) (H : ℕ → ℕ → Bool)
    (hH : ∀ i j, H i j = decide ((i < tx ∧ j < ty) ∧ a j = i))
    {i : ℕ} (hi : i ≤ tx) :
    cumDur (computeDurations H ty) i =
      ((Finset.range ty).filter (fun j => a j < i)).card := by
  rw [cumDur, ← cumDur_fiber a ty i]
  refine Finset.sum_congr rfl (fun k hk => ?_)
  exact computeDurations_eq tx ty a H hH
    (lt_of_lt_of_le (Finset.mem_range.mp hk) hi)

/-- C3: regenerating an attention path from the per-phoneme durations of a
hard alignment H that is one-hot per valid frame (with assignment function
a), monotonic, and zero-based, with the same input mask tx and output mask
ty, returns H itself. -/
theorem generate_attn_roundtrip (tx ty : ℕ) (a : ℕ → ℕ) (H : ℕ → ℕ → Bool)
    (hH : ∀ i j, H i j = decide ((i < tx ∧ j < ty) ∧ a j = i))
    (ha : ∀ j, j < ty → a j < tx)
    (hmono : ∀ j₁ j₂, j₁ ≤ j₂ → j₂ < ty → a j₁ ≤ a j₂)
    (hzero : 0 < ty → a 0 = 0) :
    ∀ i j, generate_path (computeDurations H ty) tx ty i j = H i j := by
  intro i j
  rw [hH, generate_path, decide_eq_decide]
  by_cases hij : i < tx ∧ j < ty
  · obtain ⟨hitx, hjty⟩ := hij
    have h1 := cumDur_computeDurations tx ty a H hH (le_of_lt hitx)
    have h2 := cumDur_computeDurations tx ty a H hH (i := i + 1) (by omega)
    have hc1 := monotone_count_iff a ty hmono i j hjty
    have hc2 := monotone_count_iff a ty hmono (i + 1) j hjty
    constructor
    · rintro ⟨hcond, hle, hlt⟩
      refine ⟨hcond, ?_⟩
      rw [h1] at hle
      rw [h2] at hlt
      have hge : ¬ a j < i := fun hh => by
        have := hc1.mp hh
        omega
      have hlt' : a j < i + 1 := hc2.mpr hlt
      omega
    · rintro ⟨hcond, he⟩
      refine ⟨hcond, ?_, ?_⟩
      · rw [h1]
        have hge : ¬ a j < i := by omega
        have := fun hh => hge (hc1.mpr hh)
        omega
      · rw [h2]
        exact hc2.mp (by omega)
  · constructor
    · rintro ⟨h, _⟩
      exact absurd h hij
    · rintro ⟨h, _⟩
      exact absurd h hij

/-- Witness for C3 at a concrete one-phoneme, two-frame hard alignment. -/
theorem generate_attn_roundtrip_witness :
    (∀ i j, HEx i j = decide ((i < 1 ∧ j < 2) ∧ aEx j = i)) ∧
    (∀ j, j < 2 → aEx j < 1) ∧
    (∀ j₁ j₂, j₁ ≤ j₂ → j₂ < 2 → aEx j₁ ≤ aEx j₂) ∧
    (0 < 2 → aEx 0 = 0) ∧
    (∀ i j, generate_path (computeDurations HEx 2) 1 2 i j = HEx i j) :=
  ⟨fun i j => rfl, fun j hj => Nat.one_pos, fun j₁ j₂ h hl => Nat.le_refl 0,
   fun h => rfl,
   generate_attn_roundtrip 1 2 aEx HEx (fun i j => rfl)
     (fun j hj => Nat.one_pos) (fun j₁ j₂ h hl => Nat.le_refl 0)
     (fun h => rfl)⟩

/-- C4 counterexample: a raw predicted duration of -1 yields the duration
-1 at inference, which is negative, so the predicted durations are not
clamped to be greater than or equal to zero. -/
theorem infDurations_not_clamped :
    infDurations (-1) = -1 ∧ ¬ 0 ≤ infDurations (-1) := by
  constructor
  · norm_num [infDurations, roundHalfEven]
  · norm_num [infDurations, roundHalfEven]

/-- C4 amended: the per-phoneme durations used by the inference orchestrator
are the raw predicted durations rounded to the nearest integer (ties to
even, the torch.round convention); no clamping at zero is applied, so the
rounded value is always within one half of the raw prediction. -/
theorem infDurations_nearest (q : ℚ) :
    |(infDurations q : ℚ) - q| ≤ 1 / 2 := by
  have h0 : (Int.floor q : ℚ) ≤ q := Int.floor_le q
  have h1 : q < (Int.floor q : ℚ) + 1 := Int.lt_floor_add_one q
  rw [infDurations, roundHalfEven]
  split_ifs with hlt hgt heven
  · rw [abs_le]
    constructor <;> linarith
  · rw [abs_le]
    constructor <;> push_cast <;> linarith
  · have he : q - (Int.floor q : ℚ) = 1 / 2 := by linarith
    rw [abs_le]
    constructor <;> linarith
  · have he : q - (Int.floor q : ℚ) = 1 / 2 := by linarith
    rw [abs_le]
    constructor <;> push_cast <;> linarith

/-- C5 counterexample: with the drawn target size 48 (inside the window
around the configured base 48) and a batch of latent lengths [1, 100], the
effective segment size is 0 for every utterance: it is below the minimum of
1, and the utterance of valid length 100 (not shorter than half the target)
does not receive the target size 48 either. -/
theorem seg_size_std_zero :
    seg_size_std_batch 48 [1, 100] = 0 ∧
    ¬ 1 ≤ seg_size_std_batch 48 [1, 100] ∧
    seg_size_std_batch 48 [1, 100] ≠ 48 := by
  refine ⟨?_, ?_, ?_⟩ <;> decide

/-- C5 amended: a single randomized target size p, drawn once per batch
within plus or minus 16 of the configured base, is shared by every utterance
in the batch; when every utterance's valid length strictly exceeds p the
effective segment size is p, otherwise it is half the batch-minimum valid
length (integer floor), again shared by all utterances; the effective size
is at least 1 provided p is at least 1 and the batch minimum length is at
least 2 (it is 0 when the batch minimum length is at most 1). -/
theorem seg_size_std_cases (p : ℕ) (lens : List ℕ) (h1 : 1 ≤ p)
    (h2 : 2 ≤ latentsMin lens) :
    (p < latentsMin lens → seg_size_std_batch p lens = p) ∧
    (latentsMin lens ≤ p →
      seg_size_std_batch p lens = latentsMin lens / 2) ∧
    1 ≤ seg_size_std_batch p lens := by
  unfold seg_size_std_batch seg_size_std
  refine ⟨fun h => by simp [h], fun h => by simp [Nat.not_lt.mpr h], ?_⟩
  split_ifs with h
  · omega
  · omega

/-- Witness for the amended C5 at target size 48 and batch lengths
[40, 50]. -/
theorem seg_size_std_cases_witness :
    1 ≤ 48 ∧ 2 ≤ latentsMin [40, 50] ∧
    ((48 < latentsMin [40, 50] → seg_size_std_batch 48 [40, 50] = 48) ∧
     (latentsMin [40, 50] ≤ 48 →
       seg_size_std_batch 48 [40, 50] = latentsMin [40, 50] / 2) ∧
     1 ≤ seg_size_std_batch 48 [40, 50]) :=
  ⟨by decide, by decide, seg_size_std_cases 48 [40, 50] (by decide) (by decide)⟩

/-- C6: within the padded latent sequence of width T, the remaining mask is
false exactly on the positions of the sampled prompt segment; the set of
true positions is disjoint from the segment positions and together they
cover the full latent sequence. -/
theorem remaining_mask_complement (T idx size : ℕ) (h : idx + size ≤ T) :
    (Finset.range T).filter (fun t => remaining_mask idx size t = false) =
      segment_positions idx size ∧
    Disjoint
      ((Finset.range T).filter (fun t => remaining_mask idx size t = true))
      (segment_positions idx size) ∧
    ((Finset.range T).filter (fun t => remaining_mask idx size t = true)) ∪
      segment_positions idx size = Finset.range T := by
  refine ⟨?_, ?_, ?_⟩
  · ext t
    simp only [Finset.mem_filter, Finset.mem_range, remaining_mask,
      segment_positions, Finset.mem_Ico, Bool.not_eq_false', decide_eq_true_eq]
    omega
  · rw [Finset.disjoint_left]
    intro t ht hseg
    have h1 := (Finset.mem_filter.mp ht).2
    have h2 := Finset.mem_Ico.mp hseg
    simp only [remaining_mask, Bool.not_eq_true', decide_eq_false_iff_not] at h1
    exact h1 ⟨h2.1, h2.2⟩
  · ext t
    simp only [Finset.mem_union, Finset.mem_filter, Finset.mem_range,
      remaining_mask, segment_positions, Finset.mem_Ico,
      Bool.not_eq_true', decide_eq_false_iff_not]
    constructor
    · rintro (⟨ht, _⟩ | hseg)
      · exact ht
      · omega
    · intro ht
      by_cases hs : idx ≤ t ∧ t < idx + size
      · exact Or.inr hs
      · exact Or.inl ⟨ht, hs⟩

/-- Witness for C6 at T = 10, segment start 3, segment size 4. -/
theorem remaining_mask_complement_witness :
    3 + 4 ≤ 10 ∧
    ((Finset.range 10).filter (fun t => remaining_mask 3 4 t = false) =
       segment_positions 3 4 ∧
     Disjoint
       ((Finset.range 10).filter (fun t => remaining_mask 3 4 t = true))
       (segment_positions 3 4) ∧
     ((Finset.range 10).filter (fun t => remaining_mask 3 4 t = true)) ∪
       segment_positions 3 4 = Finset.range 10) :=
  ⟨by decide, remaining_mask_complement 10 3 4 (by decide)⟩

/-- C7: the pitch transform applied at inference is the exact inverse of the
mel-scale-like logarithmic transform applied to the training pitch targets,
on every non-negative pitch value (real-number model). -/
theorem pitch_transform_inverse (f : ℝ) (hf : 0 ≤ f) :
    invMelScalePitch (melScalePitch f) = f := by
  have hx : (0 : ℝ) < 1 + f / 700 := by linarith
  rw [melScalePitch, invMelScalePitch]
  have harg : 2595 * Real.logb 10 (1 + f / 700) / 500 * 500 / 2595 =
      Real.logb 10 (1 + f / 700) := by ring
  rw [harg, Real.rpow_logb (by norm_num) (by norm_num) hx]
  ring

/-- Witness for C7 at pitch value 0. -/
theorem pitch_transform_inverse_witness :
    (0 : ℝ) ≤ 0 ∧ invMelScalePitch (melScalePitch 0) = 0 :=
  ⟨le_refl 0, pitch_transform_inverse 0 (le_refl 0)⟩

/-- C8: the aligner forward pass fails fatally with the NaN error exactly
when the soft alignment contains a NaN entry; in that case the monotonic
alignment search is never executed (no hard alignment is produced). -/
theorem forwardAligner_nan (A : List (List (Option ℚ))) (tx ty : ℕ) :
    forwardAligner A tx ty = Except.error AlignerError.alignmentNaN ↔
      hasNaN A = true := by
  rw [forwardAligner]
  by_cases h : hasNaN A
  · simp [h]
  · simp [h]

/-- C10: when generate_attn is called without an output mask, the derived
output length is the sum of the durations clamped below at 1: it is at least
one frame even when the durations sum to zero or a negative value. -/
theorem generate_attn_ylen_clamped (dr : List ℤ) :
    generate_attn_ylen dr = max 1 dr.sum ∧ 1 ≤ generate_attn_ylen dr := by
  rw [generate_attn_ylen]
  rcases lt_or_le dr.sum 1 with h | h
  · simp only [if_pos h]
    constructor
    · rw [max_eq_left (by omega)]
    · omega
  · simp only [if_neg (not_lt.mpr h)]
    constructor
    · rw [max_eq_right h]
    · omega
